import Mathlib

/-!
Verification of the hybrid span-detection and position-resolution engine
(`hybrid_detector.py`, `ocr_redaction.py`).

Python strings are embedded as `List Char` (ASCII fragment of Python's
Unicode semantics: `str.lower`, `str.strip`, `\s`, `\w` are modelled over
ASCII, which covers every input appearing in the development).  Python
`int` indices produced by the detectors are character offsets, embedded as
`Nat`; the overlap-resolution cursor, initialised to `-1` in the source, is
embedded as `Int`.  `float` confidence scores and similarity ratios are
embedded as `Rat` (the scores appearing here are exactly representable).
-/

/-- A Python string, as a list of characters. -/
abbrev Str := List Char

/-- Character data of a string literal. -/
def str (s : String) : Str := s.data

/-- Python `str.isspace` characters / the ASCII part of regex `\s`:
space, tab, newline, carriage return, vertical tab, form feed. -/
def isPySpace (c : Char) : Bool :=
  c.toNat = 32 || c.toNat = 9 || c.toNat = 10 || c.toNat = 13 ||
  c.toNat = 11 || c.toNat = 12

/-- ASCII letter (regex `[A-Za-z]`). -/
def isAsciiLetter (c : Char) : Bool :=
  (65 ≤ c.toNat && c.toNat ≤ 90) || (97 ≤ c.toNat && c.toNat ≤ 122)

/-- ASCII digit. -/
def isAsciiDigit (c : Char) : Bool := 48 ≤ c.toNat && c.toNat ≤ 57

/-- The ASCII part of regex `\w`: letters, digits and underscore. -/
def isWordChar (c : Char) : Bool :=
  isAsciiLetter c || isAsciiDigit c || c.toNat = 95

/-- Python `str.lower` on one ASCII character. -/
def pyLower (c : Char) : Char :=
  if h : 65 ≤ c.toNat ∧ c.toNat ≤ 90 then
    Char.ofNatAux (c.toNat + 32) (Or.inl (by omega))
  else c

/-- Python `str.upper` on one ASCII character. -/
def pyUpper (c : Char) : Char :=
  if h : 97 ≤ c.toNat ∧ c.toNat ≤ 122 then
    Char.ofNatAux (c.toNat - 32) (Or.inl (by omega))
  else c

/-- Python `str.lower`. -/
def pyLowerS (s : Str) : Str := s.map pyLower

/-- Python `str.upper`. -/
def pyUpperS (s : Str) : Str := s.map pyUpper

/-- Python `str.strip()`: remove leading and trailing whitespace. -/
def pyStrip (s : Str) : Str :=
  ((s.dropWhile isPySpace).reverse.dropWhile isPySpace).reverse

/-- Python slice `s[a:b]` for `0 ≤ a ≤ b` (clamped at the end of `s`). -/
def pySlice (s : Str) (a b : Nat) : Str := (s.drop a).take (b - a)

/-- Python substring test `n in h`. -/
def containsSub (h n : Str) : Bool :=
  match h with
  | [] => n.isEmpty
  | _ :: t => n.isPrefixOf h || containsSub t n

/-- Index of the first occurrence of `n` in `h` (`h.find(n)` when it is
not `-1`). -/
def findSub (h n : Str) : Option Nat :=
  match h with
  | [] => if n.isEmpty then some 0 else none
  | _ :: t => if n.isPrefixOf h then some 0 else (findSub t n).map (· + 1)

/-- Python `h.find(n, start)` (as `Option`; `none` for `-1`). -/
def findFrom (h n : Str) (start : Nat) : Option Nat :=
  (findSub (h.drop start) n).map (· + start)

/-- Python `str.split()`: split on runs of whitespace, dropping empties.
The fuel argument bounds the recursion; `s.length + 1` always suffices. -/
def splitWsGo : Nat → Str → List Str
  | 0, _ => []
  | fuel + 1, s =>
    let s' := s.dropWhile isPySpace
    match s' with
    | [] => []
    | _ :: _ =>
      let w := s'.takeWhile (fun c => !isPySpace c)
      w :: splitWsGo fuel (s'.drop w.length)

/-- Python `str.split()`. -/
def splitWs (s : Str) : List Str := splitWsGo (s.length + 1) s

/-- `DetectionResult` from `hybrid_detector.py`: a detected PII span. -/
structure DetectionResult where
  text : Str
  entity_type : String
  start : Nat
  «end» : Nat
  score : Rat
  match_mode : String
deriving DecidableEq

/-- The `DENY_LIST` set literal from `hybrid_detector.py` (the source lists
`"branch"` twice; set membership is unaffected). -/
def DENY_LIST : List Str :=
  [str "name", str "student", str "father", str "mother", str "guardian",
   str "aadhaar", str "caste", str "category", str "income", str "board",
   str "university", str "college", str "course", str "seat", str "type",
   str "quota", str "number", str "id", str "date", str "year", str "branch",
   str "discipline", str "attestation", str "submitted", str "considered",
   str "eligible", str "details", str "status", str "bank", str "branch"]

/-- `HybridPIIDetector._filter_deny_list`: drop spans whose lowercased,
trimmed text is a deny-list entry, and spans containing "name" that are at
most two words long. -/
def filter_deny_list : List DetectionResult → List DetectionResult
  | [] => []
  | r :: rs =>
    let text_lower := pyStrip (pyLowerS r.text)
    if text_lower ∈ DENY_LIST then filter_deny_list rs
    else if containsSub text_lower (str "name") && decide ((splitWs text_lower).length ≤ 2) then
      filter_deny_list rs
    else r :: filter_deny_list rs

/-- The sort predicate corresponding to Python's stable sort with key
`(r.start, -r.score)` in `_deduplicate_results`. -/
def dedupLE (a b : DetectionResult) : Bool :=
  decide (a.start < b.start) || (decide (a.start = b.start) && decide (b.score ≤ a.score))

/-- The greedy acceptance loop of `_deduplicate_results`: keep a span when
its start is at or past the cursor `lastEnd` (initialised to `-1`), then
move the cursor to its end; otherwise drop it.  The source's `elif` branch
for overlapping spans only executes `pass` and never appends. -/
def dedupGo : Int → List DetectionResult → List DetectionResult
  | _, [] => []
  | lastEnd, r :: rs =>
    if (r.start : Int) ≥ lastEnd then r :: dedupGo (r.«end» : Int) rs
    else dedupGo lastEnd rs

/-- `HybridPIIDetector._deduplicate_results`. -/
def deduplicate_results (results : List DetectionResult) : List DetectionResult :=
  match results with
  | [] => []
  | _ :: _ => dedupGo (-1) (results.mergeSort dedupLE)

/-- Two `[start, end)` character ranges overlap. -/
def spansOverlap (a b : DetectionResult) : Prop :=
  max a.start b.start < min a.«end» b.«end»

instance (a b : DetectionResult) : Decidable (spansOverlap a b) := by
  unfold spansOverlap; infer_instance

/-- `dedupLE` is transitive (lexicographic on `(start, -score)`). -/
theorem dedupLE_trans (a b c : DetectionResult) :
    dedupLE a b → dedupLE b c → dedupLE a c := by
  simp only [dedupLE, Bool.or_eq_true, Bool.and_eq_true, decide_eq_true_eq]
  rintro (h1 | ⟨e1, s1⟩) (h2 | ⟨e2, s2⟩)
  · exact Or.inl (by omega)
  · exact Or.inl (by omega)
  · exact Or.inl (by omega)
  · exact Or.inr ⟨by omega, le_trans s2 s1⟩

/-- `dedupLE` is total. -/
theorem dedupLE_total (a b : DetectionResult) : dedupLE a b || dedupLE b a := by
  simp only [dedupLE, Bool.or_eq_true, Bool.and_eq_true, decide_eq_true_eq]
  rcases Nat.lt_trichotomy a.start b.start with h | h | h
  · exact Or.inl (Or.inl h)
  · rcases le_total b.score a.score with hs | hs
    · exact Or.inl (Or.inr ⟨h, hs⟩)
    · exact Or.inr (Or.inr ⟨h.symm, hs⟩)
  · exact Or.inr (Or.inl h)

/-- The greedy pass only drops candidates: its output is a sublist. -/
theorem dedupGo_sublist :
    ∀ (c : Int) (l : List DetectionResult), List.Sublist (dedupGo c l) l
  | _, [] => List.Sublist.refl []
  | c, r :: rs => by
    unfold dedupGo
    split
    · exact (dedupGo_sublist (r.«end» : Int) rs).cons₂ r
    · exact (dedupGo_sublist c rs).cons r

/-- The first span the greedy pass accepts starts at or past the cursor. -/
theorem dedupGo_head_start :
    ∀ (c : Int) (l : List DetectionResult) (x : DetectionResult),
      (dedupGo c l).head? = some x → (x.start : Int) ≥ c
  | c, [], x => by simp [dedupGo]
  | c, r :: rs, x => by
    unfold dedupGo
    split
    · intro h
      simp only [List.head?_cons, Option.some.injEq] at h
      subst h; assumption
    · exact dedupGo_head_start c rs x

/-- Consecutive accepted spans do not overlap: each starts at or past the
previous one's end. -/
theorem dedupGo_chain :
    ∀ (c : Int) (l : List DetectionResult),
      (dedupGo c l).Chain' (fun a b => a.«end» ≤ b.start)
  | _, [] => List.chain'_nil
  | c, r :: rs => by
    unfold dedupGo
    split
    · rw [List.chain'_cons']
      refine ⟨fun y hy => ?_, dedupGo_chain _ rs⟩
      have := dedupGo_head_start (r.«end» : Int) rs y hy
      exact_mod_cast this
    · exact dedupGo_chain c rs

/-- In a list whose starts are nondecreasing, the adjacent condition
`end ≤ next start` propagates to all pairs. -/
theorem chain'_pairwise_of_starts :
    ∀ {l : List DetectionResult},
      l.Pairwise (fun a b => a.start ≤ b.start) →
      l.Chain' (fun a b => a.«end» ≤ b.start) →
      l.Pairwise (fun a b => a.«end» ≤ b.start)
  | [], _, _ => List.Pairwise.nil
  | x :: l, hp, hc => by
    rw [List.pairwise_cons] at hp
    rw [List.chain'_cons'] at hc
    refine List.Pairwise.cons (fun y hy => ?_) (chain'_pairwise_of_starts hp.2 hc.2)
    cases l with
    | nil => cases hy
    | cons z l' =>
      have hxz : x.«end» ≤ z.start := hc.1 z rfl
      rcases hy with _ | hy'
      · exact hxz
      · have hzy : z.start ≤ y.start :=
          List.rel_of_pairwise_cons hp.2 (by assumption)
        exact le_trans hxz hzy

/-- The output of the greedy pass on a start-sorted list has
`a.end ≤ b.start` for every earlier/later pair. -/
theorem dedupGo_pairwise (c : Int) (l : List DetectionResult)
    (hs : l.Pairwise (fun a b => a.start ≤ b.start)) :
    (dedupGo c l).Pairwise (fun a b => a.«end» ≤ b.start) :=
  chain'_pairwise_of_starts (hs.sublist (dedupGo_sublist c l)) (dedupGo_chain c l)

/-- The sorted candidate list has nondecreasing starts. -/
theorem mergeSort_starts_sorted (l : List DetectionResult) :
    (l.mergeSort dedupLE).Pairwise (fun a b => a.start ≤ b.start) := by
  have h := List.sorted_mergeSort dedupLE_trans dedupLE_total l
  refine h.imp ?_
  intro a b hab
  simp only [dedupLE, Bool.or_eq_true, Bool.and_eq_true, decide_eq_true_eq] at hab
  rcases hab with h' | ⟨h', _⟩ <;> omega

/-- C1.  For every input list of spans, the output of
`_deduplicate_results` contains no two spans whose `[start, end)`
character ranges overlap: the function stable-sorts the candidates by
`(start ascending, confidence descending)` and greedily accepts a span
exactly when its start is at or past the end of the last accepted span
(cursor initialised to `-1`), so every accepted span ends at or before
each later accepted span starts. -/
theorem C1_dedup_output_overlap_free (l : List DetectionResult) :
    (deduplicate_results l).Pairwise (fun a b => ¬ spansOverlap a b) := by
  unfold deduplicate_results
  match l with
  | [] => exact List.Pairwise.nil
  | r :: rs =>
    have hp := dedupGo_pairwise (-1) ((r :: rs).mergeSort dedupLE)
      (mergeSort_starts_sorted (r :: rs))
    refine hp.imp ?_
    intro a b hab
    unfold spansOverlap
    omega

/-- The greedy pass leaves a list unchanged when its head starts at or
past the cursor and adjacent spans already satisfy `end ≤ next start`. -/
theorem dedupGo_fixed :
    ∀ (l : List DetectionResult) (c : Int),
      (∀ x, l.head? = some x → (x.start : Int) ≥ c) →
      l.Chain' (fun a b => a.«end» ≤ b.start) →
      dedupGo c l = l
  | [], _, _, _ => rfl
  | r :: rs, c, hh, hc => by
    rw [List.chain'_cons'] at hc
    unfold dedupGo
    rw [if_pos (hh r rfl)]
    congr 1
    refine dedupGo_fixed rs (r.«end» : Int) (fun x hx => ?_) hc.2
    have := hc.1 x hx
    exact_mod_cast this

/-- A list that is already sorted by the dedup key and whose adjacent
spans satisfy `end ≤ next start` is a fixed point of
`_deduplicate_results`. -/
theorem dedup_fixed_of :
    ∀ (out : List DetectionResult),
      out.Pairwise (fun a b => dedupLE a b = true) →
      out.Chain' (fun a b => a.«end» ≤ b.start) →
      deduplicate_results out = out
  | [], _, _ => rfl
  | y :: ys, hsorted, hchain => by
    unfold deduplicate_results
    rw [List.mergeSort_of_sorted hsorted]
    refine dedupGo_fixed (y :: ys) (-1) (fun x _ => ?_) hchain
    omega

/-- C10.  Overlap resolution is idempotent: applying
`_deduplicate_results` to its own output returns the output unchanged
(the output is sorted by the same key and each accepted span starts at or
past the previous accepted span's end), so the second consecutive call to
`_deduplicate_results` inside `detect` is a no-op. -/
theorem C10_dedup_idempotent (l : List DetectionResult) :
    deduplicate_results (deduplicate_results l) = deduplicate_results l := by
  match l with
  | [] => rfl
  | r :: rs =>
    refine dedup_fixed_of _ ?_ ?_
    · exact List.Pairwise.sublist (dedupGo_sublist (-1) _)
        (List.sorted_mergeSort dedupLE_trans dedupLE_total (r :: rs))
    · exact dedupGo_chain (-1) _

/-- The keep-condition of `_filter_deny_list`, as one Boolean: the
lowercased, trimmed text is not a deny-list entry, and it is not the case
that it contains "name" while being at most two words long. -/
def denyKeep (r : DetectionResult) : Bool :=
  let tl := pyStrip (pyLowerS r.text)
  !(decide (tl ∈ DENY_LIST)) &&
    !(containsSub tl (str "name") && decide ((splitWs tl).length ≤ 2))

/-- The deny-list filter is exactly `List.filter denyKeep`. -/
theorem filter_deny_list_eq_filter (l : List DetectionResult) :
    filter_deny_list l = l.filter denyKeep := by
  induction l with
  | nil => rfl
  | cons x xs ih =>
    show filter_deny_list (x :: xs) = List.filter denyKeep (x :: xs)
    rw [List.filter_cons]
    unfold filter_deny_list
    by_cases h1 : pyStrip (pyLowerS x.text) ∈ DENY_LIST
    · have hk : denyKeep x = false := by simp [denyKeep, h1]
      simp [h1, hk, ih]
    · by_cases h2 : (containsSub (pyStrip (pyLowerS x.text)) (str "name") &&
          decide ((splitWs (pyStrip (pyLowerS x.text))).length ≤ 2)) = true
      · have hk : denyKeep x = false := by simp [denyKeep, h2]
        simp [h1, h2, hk, ih]
      · have hk : denyKeep x = true := by simp [denyKeep, h1, h2]
        simp [h1, h2, hk, ih]

/-- C6.  Every span in the output of `_filter_deny_list` satisfies both:
its lowercased, trimmed text is not a deny-list entry, and it does not
contain the substring "name" while consisting of at most two
whitespace-separated words; all other spans are kept in their original
order (the filter is exactly `List.filter` of the keep-condition). -/
theorem C6_deny_list_filter (l : List DetectionResult) :
    filter_deny_list l = l.filter denyKeep ∧
    ∀ r ∈ filter_deny_list l,
      pyStrip (pyLowerS r.text) ∉ DENY_LIST ∧
      ¬(containsSub (pyStrip (pyLowerS r.text)) (str "name") = true ∧
        (splitWs (pyStrip (pyLowerS r.text))).length ≤ 2) := by
  refine ⟨filter_deny_list_eq_filter l, fun r hr => ?_⟩
  rw [filter_deny_list_eq_filter l, List.mem_filter] at hr
  have hk := hr.2
  unfold denyKeep at hk
  simp only [Bool.and_eq_true, Bool.not_eq_true', Bool.and_eq_false_iff,
    decide_eq_false_iff_not, Bool.not_eq_true, decide_eq_true_eq] at hk
  refine ⟨hk.1, fun hc => ?_⟩
  rcases hk.2 with h | h
  · exact absurd (hc.1.symm.trans h) (by decide)
  · exact h hc.2

/-- Witness for C6 at a concrete input. -/
theorem C6_deny_list_filter_witness :
    (filter_deny_list [⟨str "JOHN", "PERSON", 0, 4, 1, "presidio"⟩] =
      [⟨str "JOHN", "PERSON", 0, 4, 1, "presidio"⟩].filter denyKeep) ∧
    (pyStrip (pyLowerS (str "JOHN")) ∉ DENY_LIST) := by
  have h := C6_deny_list_filter [⟨str "JOHN", "PERSON", 0, 4, 1, "presidio"⟩]
  refine ⟨h.1, ?_⟩
  exact (h.2 ⟨str "JOHN", "PERSON", 0, 4, 1, "presidio"⟩ (by decide)).1

/-- Inner `while True` loop of `_exact_match` for one keyword: report an
occurrence at each index where the stripped lowercased keyword occurs in
the lowercased text, restarting the search one character later.  The span
text is the Python slice `text[idx : idx + len(keyword)]` and the span end
is `idx + len(keyword)` — both use the length of the original (unstripped)
keyword, as in the source.  Fuel bounds the loop; `text.length + 1`
iterations always suffice. -/
def exactLoop (text kw tl kl : Str) : Nat → Nat → List DetectionResult
  | 0, _ => []
  | fuel + 1, start =>
    match findFrom tl kl start with
    | none => []
    | some idx =>
      ⟨pySlice text idx (idx + kw.length), "CUSTOM_KEYWORD", idx,
        idx + kw.length, 1, "exact"⟩ :: exactLoop text kw tl kl fuel (idx + 1)

/-- `HybridPIIDetector._exact_match`: case-insensitive literal matching of
every keyword, skipping keywords that are empty after stripping. -/
def exact_match (text : Str) (keywords : List Str) : List DetectionResult :=
  let tl := pyLowerS text
  keywords.flatMap fun kw =>
    if pyStrip kw = [] then []
    else exactLoop text kw tl (pyStrip (pyLowerS kw)) (text.length + 1) 0

/-- A found occurrence of `n` in `h` lies wholly inside `h`. -/
theorem findSub_bound :
    ∀ (h n : Str) (i : Nat), findSub h n = some i → i + n.length ≤ h.length := by
  intro h
  induction h with
  | nil =>
    intro n i hf
    unfold findSub at hf
    split at hf
    · rename_i he
      cases hf
      simp [List.isEmpty_iff.mp he]
    · cases hf
  | cons c t ih =>
    intro n i hf
    unfold findSub at hf
    split at hf
    · rename_i hp
      cases hf
      have := List.IsPrefix.length_le (List.isPrefixOf_iff_prefix.mp hp)
      simpa using this
    · simp only [Option.map_eq_some'] at hf
      obtain ⟨j, hj, rfl⟩ := hf
      have := ih n j hj
      simp only [List.length_cons]
      omega

/-- A found occurrence of `n` in `h` starting from `start` lies wholly
inside `h`. -/
theorem findFrom_bound (h n : Str) (start i : Nat) (hn : n ≠ [])
    (hf : findFrom h n start = some i) : i + n.length ≤ h.length := by
  unfold findFrom at hf
  simp only [Option.map_eq_some'] at hf
  obtain ⟨j, hj, rfl⟩ := hf
  have hb := findSub_bound (h.drop start) n j hj
  have hd : (h.drop start).length = h.length - start := List.length_drop start h
  have hn1 : 1 ≤ n.length := List.length_pos.mpr hn
  omega

/-- Stripping does not lengthen a string. -/
theorem pyStrip_length_le (s : Str) : (pyStrip s).length ≤ s.length := by
  unfold pyStrip
  have h1 := (List.dropWhile_sublist (l := s) isPySpace).length_le
  have h2 := (List.dropWhile_sublist
    (l := (s.dropWhile isPySpace).reverse) isPySpace).length_le
  simp only [List.length_reverse] at h2 ⊢
  omega

/-- Lowercasing a character does not change whether it is whitespace. -/
theorem isPySpace_pyLower (c : Char) : isPySpace (pyLower c) = isPySpace c := by
  unfold pyLower
  split
  · rename_i h
    have key : ∀ d : Char, d.toNat = c.toNat + 32 → isPySpace d = isPySpace c := by
      intro d hd
      have hl : isPySpace d = false := by
        simp only [isPySpace, hd, Bool.or_eq_false_iff, decide_eq_false_iff_not]
        omega
      have hr : isPySpace c = false := by
        simp only [isPySpace, Bool.or_eq_false_iff, decide_eq_false_iff_not]
        omega
      rw [hl, hr]
    exact key _ rfl
  · rfl

/-- Stripping commutes with lowercasing. -/
theorem pyStrip_pyLowerS (s : Str) :
    pyStrip (pyLowerS s) = pyLowerS (pyStrip s) := by
  unfold pyStrip pyLowerS
  have hf : (isPySpace ∘ pyLower) = isPySpace := by
    funext c
    exact isPySpace_pyLower c
  rw [List.dropWhile_map, hf, ← List.map_reverse, List.dropWhile_map, hf,
    ← List.map_reverse]

/-- Stripping the empty string gives the empty string. -/
theorem pyStrip_nil : pyStrip [] = [] := rfl

/-- Every span the exact-match loop reports is the slice
`text[idx : idx + len(keyword)]` at an occurrence of the stripped
lowercased keyword, which lies wholly inside the text. -/
theorem exactLoop_props (text kw tl kl : Str) (hkl : kl ≠ [])
    (hlen : tl.length = text.length) :
    ∀ (fuel start : Nat) (r : DetectionResult),
      r ∈ exactLoop text kw tl kl fuel start →
      ∃ idx,
        r = ⟨pySlice text idx (idx + kw.length), "CUSTOM_KEYWORD", idx,
          idx + kw.length, 1, "exact"⟩ ∧
        idx + kl.length ≤ text.length := by
  intro fuel
  induction fuel with
  | zero => intro start r hr; cases hr
  | succ f ih =>
    intro start r hr
    unfold exactLoop at hr
    cases hfind : findFrom tl kl start with
    | none => rw [hfind] at hr; cases hr
    | some idx =>
      rw [hfind] at hr
      rcases List.mem_cons.mp hr with hr | hr
      · refine ⟨idx, hr, ?_⟩
        have := findFrom_bound tl kl start idx hkl hfind
        omega
      · exact ih (idx + 1) r hr

/-- Membership characterisation for `_exact_match`. -/
theorem exact_match_mem (text : Str) (kws : List Str) (r : DetectionResult)
    (hr : r ∈ exact_match text kws) :
    ∃ kw ∈ kws, pyStrip kw ≠ [] ∧ ∃ idx,
      r = ⟨pySlice text idx (idx + kw.length), "CUSTOM_KEYWORD", idx,
        idx + kw.length, 1, "exact"⟩ ∧
      idx + (pyStrip (pyLowerS kw)).length ≤ text.length := by
  unfold exact_match at hr
  rw [List.mem_flatMap] at hr
  obtain ⟨kw, hkw, hmem⟩ := hr
  by_cases hk : pyStrip kw = []
  · rw [if_pos hk] at hmem; cases hmem
  · rw [if_neg hk] at hmem
    refine ⟨kw, hkw, hk, ?_⟩
    have hkl : pyStrip (pyLowerS kw) ≠ [] := by
      rw [pyStrip_pyLowerS]
      intro hcon
      exact hk (by simpa [pyLowerS] using congrArg List.length hcon)
    exact exactLoop_props text kw (pyLowerS text) (pyStrip (pyLowerS kw)) hkl
      (by simp [pyLowerS]) (text.length + 1) 0 r hmem

/-- C3 counterexample.  With keyword `" john "` (surrounding whitespace)
and text `"ab john"`, `_exact_match` reports a span whose `end` is
`3 + len(" john ") = 9`, exceeding the input length `7`: the claim that
every produced span's `end` never exceeds the input length is false. -/
theorem C3_counterexample :
    ¬ (∀ r ∈ exact_match (str "ab john") [str " john "],
        r.«end» ≤ (str "ab john").length) := by decide

/-! ### The label-heuristic regex of `_detect_label_based_names`

The source compiles (with `re.IGNORECASE`-style inline flag `(?i)` and
`re.MULTILINE`):

  `\b(?:Name|Student|Father|Mother|Guardian|Husband|Wife)`
  `(?:\s+(?:Name|of|Student))?[\s\:\-\.]+(?:as\s+in\s+Aadhaar)?[\s\:\-\.]*`
  `([A-Z][A-Za-z\s\.]{2,40})(?=$|\s{2,}|\n)`

and iterates `finditer` over the text.  The embedding below is a
backtracking matcher specialised to this pattern: a component maps a
position to the list of its possible end positions in Python's
backtracking priority order (greedy counts descending, alternatives in
written order), sequencing explores them depth-first, and the first
overall success is taken — exactly the leftmost depth-first semantics of
the `re` engine.  Under the global `(?i)` flag, `[A-Z]` matches any ASCII
letter and literals compare case-insensitively. -/

/-- One regex component: possible end positions, in priority order. -/
abbrev Matcher := Str → Nat → List Nat

/-- Sequencing (depth-first: the first component's choices are outer). -/
def mSeq (m1 m2 : Matcher) : Matcher := fun s p => (m1 s p).flatMap (m2 s)

/-- Ordered alternation. -/
def mAlt (ms : List Matcher) : Matcher := fun s p => ms.flatMap (fun m => m s p)

/-- Greedy option `(?:...)?`: try the body first, then skipping it. -/
def mOpt (m : Matcher) : Matcher := fun s p => m s p ++ [p]

/-- Zero-width test (for `\b`). -/
def mTest (f : Str → Nat → Bool) : Matcher := fun s p => if f s p then [p] else []

/-- Case-insensitive literal. -/
def mLit (w : Str) : Matcher := fun s p =>
  if p + w.length ≤ s.length ∧ pyLowerS (pySlice s p (p + w.length)) = pyLowerS w
  then [p + w.length] else []

/-- Single character from a class. -/
def mCharClass (f : Char → Bool) : Matcher := fun s p =>
  match (s.drop p).head? with
  | some c => if f c then [p + 1] else []
  | none => []

/-- Length of the maximal run of class characters at `p`. -/
def runLen (f : Char → Bool) (s : Str) (p : Nat) : Nat :=
  ((s.drop p).takeWhile f).length

/-- Greedy repetition of a character class, at least `lo` times, at most
`hi` when bounded: end positions from the longest match downwards. -/
def mRep (f : Char → Bool) (lo : Nat) (hi : Option Nat) : Matcher := fun s p =>
  let r := match hi with
    | some h => min (runLen f s p) h
    | none => runLen f s p
  if lo ≤ r then (List.range (r - lo + 1)).map (fun k => p + r - k) else []

/-- Whether the character at `p` (if any) is a word character. -/
def wordAt (s : Str) (p : Nat) : Bool :=
  match (s.drop p).head? with
  | some c => isWordChar c
  | none => false

/-- Regex `\b` at position `p`. -/
def atBoundary (s : Str) (p : Nat) : Bool :=
  wordAt s p != (if p = 0 then false else wordAt s (p - 1))

/-- The label alternation `(?:Name|Student|Father|Mother|Guardian|Husband|Wife)`. -/
def labelM : Matcher :=
  mAlt [mLit (str "Name"), mLit (str "Student"), mLit (str "Father"),
    mLit (str "Mother"), mLit (str "Guardian"), mLit (str "Husband"),
    mLit (str "Wife")]

/-- The optional qualifier body `\s+(?:Name|of|Student)`. -/
def qualifierM : Matcher :=
  mSeq (mRep isPySpace 1 none)
    (mAlt [mLit (str "Name"), mLit (str "of"), mLit (str "Student")])

/-- The separator class `[\s\:\-\.]`. -/
def sepChar (c : Char) : Bool :=
  isPySpace c || c = ':' || c = '-' || c = '.'

/-- The optional phrase body `as\s+in\s+Aadhaar`. -/
def aadhaarM : Matcher :=
  mSeq (mLit (str "as"))
    (mSeq (mRep isPySpace 1 none)
      (mSeq (mLit (str "in"))
        (mSeq (mRep isPySpace 1 none) (mLit (str "Aadhaar")))))

/-- Everything before the capturing group. -/
def preM : Matcher :=
  mSeq (mTest atBoundary)
    (mSeq labelM
      (mSeq (mOpt qualifierM)
        (mSeq (mRep sepChar 1 none)
          (mSeq (mOpt aadhaarM) (mRep sepChar 0 none)))))

/-- `[A-Z]` under the global `(?i)` flag: any ASCII letter. -/
def valFirst (c : Char) : Bool := isAsciiLetter c

/-- `[A-Za-z\s\.]`: letters, whitespace, dot. -/
def valRest (c : Char) : Bool := isAsciiLetter c || isPySpace c || c = '.'

/-- The capturing group `([A-Z][A-Za-z\s\.]{2,40})`. -/
def groupM : Matcher := mSeq (mCharClass valFirst) (mRep valRest 2 (some 40))

/-- The lookahead `(?=$|\s{2,}|\n)` with `re.MULTILINE` (`$` matches at
the end of the text or before a newline). -/
def lookaheadOk (s : Str) (p : Nat) : Bool :=
  decide (p = s.length) ||
  (match (s.drop p).head? with
   | some c =>
     (c = '\n') ||
       (isPySpace c &&
         (match (s.drop (p + 1)).head? with
          | some d => isPySpace d
          | none => false))
   | none => true)

/-- First group end (in priority order) whose lookahead succeeds. -/
def tryGroup (s : Str) (rs : List Nat) : Option Nat :=
  rs.find? (fun r => lookaheadOk s r)

/-- Depth-first search over the pre-group alternatives: for each end
position of the pre-group part, try the group and lookahead; the first
success wins.  Returns `(group start, group end)`. -/
def tryPre (s : Str) : List Nat → Option (Nat × Nat)
  | [] => none
  | q :: qs =>
    match tryGroup s (groupM s q) with
    | some r => some (q, r)
    | none => tryPre s qs

/-- The regex match attempt anchored at `i`; on success returns the
captured group's `(start, end)` (the overall match also ends at the group
end, since the lookahead is zero-width). -/
def labelMatchAt (s : Str) (i : Nat) : Option (Nat × Nat) :=
  tryPre s (preM s i)

/-- `finditer` scan: try each position left to right, continuing after
the end of each (non-empty) match.  Fuel bounds the loop;
`s.length + 2` iterations always suffice. -/
def labelFindGo (s : Str) : Nat → Nat → List (Nat × Nat)
  | 0, _ => []
  | fuel + 1, i =>
    if i > s.length then []
    else match labelMatchAt s i with
      | some m => m :: labelFindGo s fuel (if i < m.2 then m.2 else i + 1)
      | none => labelFindGo s fuel (i + 1)

/-- All (non-overlapping, leftmost) matches of the label regex. -/
def labelFinditer (s : Str) : List (Nat × Nat) := labelFindGo s (s.length + 2) 0

/-- `HybridPIIDetector._detect_label_based_names`: capture the stripped
group value, reject values that are too short, deny-listed, or contain
"id"/"number"; the span covers the group's character range. -/
def detect_label_based_names (text : Str) : List DetectionResult :=
  (labelFinditer text).filterMap fun m =>
    if pyStrip (pySlice text m.1 m.2) = [] ∨
        (pyStrip (pySlice text m.1 m.2)).length < 2 then none
    else if pyLowerS (pyStrip (pySlice text m.1 m.2)) ∈ DENY_LIST ∨
        containsSub (pyLowerS (pyStrip (pySlice text m.1 m.2))) (str "id") = true ∨
        containsSub (pyLowerS (pyStrip (pySlice text m.1 m.2)))
          (str "number") = true then none
    else some ⟨pyStrip (pySlice text m.1 m.2), "PERSON", m.1, m.2, 0.85,
      "label_heuristic"⟩

/-- A class run never extends past the end of the string. -/
theorem runLen_le (f : Char → Bool) (s : Str) (p : Nat) :
    runLen f s p ≤ s.length - p := by
  unfold runLen
  have h := (List.takeWhile_sublist (l := s.drop p) f).length_le
  simpa [List.length_drop] using h

/-- Membership bounds for greedy repetition. -/
theorem mRep_mem (f : Char → Bool) (lo : Nat) (hi : Option Nat) (s : Str)
    (p q : Nat) (hq : q ∈ mRep f lo hi s p) :
    p + lo ≤ q ∧ q ≤ p + runLen f s p := by
  rcases hi with _ | h
  · simp only [mRep] at hq
    by_cases hlo : lo ≤ runLen f s p
    · rw [if_pos hlo] at hq
      simp only [List.mem_map, List.mem_range] at hq
      obtain ⟨k, hk, rfl⟩ := hq
      omega
    · rw [if_neg hlo] at hq
      cases hq
  · simp only [mRep] at hq
    by_cases hlo : lo ≤ min (runLen f s p) h
    · rw [if_pos hlo] at hq
      simp only [List.mem_map, List.mem_range] at hq
      obtain ⟨k, hk, rfl⟩ := hq
      have hmin : min (runLen f s p) h ≤ runLen f s p := Nat.min_le_left _ _
      omega
    · rw [if_neg hlo] at hq
      cases hq

/-- Membership bounds for a character class. -/
theorem mCharClass_mem (f : Char → Bool) (s : Str) (p q : Nat)
    (hq : q ∈ mCharClass f s p) : q = p + 1 ∧ p < s.length := by
  unfold mCharClass at hq
  cases hh : (s.drop p).head? with
  | none => rw [hh] at hq; cases hq
  | some c =>
    rw [hh] at hq
    have hq' : q ∈ (if f c = true then [p + 1] else []) := hq
    by_cases hf : f c = true
    · rw [if_pos hf] at hq'
      have hq1 : q = p + 1 := List.mem_singleton.mp hq'
      refine ⟨hq1, ?_⟩
      have hne : s.drop p ≠ [] := by
        intro hcon
        rw [hcon] at hh
        cases hh
      have := List.length_drop p s
      have hpos : 0 < (s.drop p).length := List.length_pos.mpr hne
      omega
    · rw [if_neg hf] at hq'
      cases hq'

/-- The capturing group consumes at least three characters and stays
inside the string. -/
theorem groupM_props (s : Str) (p q : Nat) (hq : q ∈ groupM s p) :
    p + 3 ≤ q ∧ q ≤ s.length := by
  unfold groupM mSeq at hq
  rw [List.mem_flatMap] at hq
  obtain ⟨mid, hmid, hq⟩ := hq
  obtain ⟨hmid1, hmid2⟩ := mCharClass_mem valFirst s p mid hmid
  obtain ⟨hq1, hq2⟩ := mRep_mem valRest 2 (some 40) s mid q hq
  have hrun := runLen_le valRest s mid
  omega

/-- A successful group-plus-lookahead search over the pre-group
positions yields a group spanning at least three characters inside the
string. -/
theorem tryPre_props (s : Str) :
    ∀ (qs : List Nat) (gs ge : Nat),
      tryPre s qs = some (gs, ge) → gs + 3 ≤ ge ∧ ge ≤ s.length := by
  intro qs
  induction qs with
  | nil => intro gs ge h; cases h
  | cons q rest ih =>
    intro gs ge h
    unfold tryPre at h
    cases hg : tryGroup s (groupM s q) with
    | none => rw [hg] at h; exact ih gs ge h
    | some r =>
      rw [hg] at h
      simp only [Option.some.injEq, Prod.mk.injEq] at h
      obtain ⟨h1, h2⟩ := h
      subst h1
      subst h2
      unfold tryGroup at hg
      exact groupM_props s q r (List.mem_of_find?_eq_some hg)

/-- Every match the scanner reports has a group of at least three
characters lying inside the string. -/
theorem labelFindGo_props (s : Str) :
    ∀ (fuel i : Nat) (m : Nat × Nat),
      m ∈ labelFindGo s fuel i → m.1 + 3 ≤ m.2 ∧ m.2 ≤ s.length := by
  intro fuel
  induction fuel with
  | zero => intro i m h; cases h
  | succ f ih =>
    intro i m h
    unfold labelFindGo at h
    split at h
    · cases h
    · cases hm : labelMatchAt s i with
      | none => rw [hm] at h; exact ih (i + 1) m h
      | some m0 =>
        rw [hm] at h
        rcases List.mem_cons.mp h with h | h
        · subst h
          exact tryPre_props s (preM s i) m.1 m.2 (by
            have : labelMatchAt s i = some (m.1, m.2) := hm
            exact this)
        · exact ih _ m h

/-- Membership characterisation for `_detect_label_based_names`: every
reported span is the stripped group value at the group's own range. -/
theorem detect_label_mem (text : Str) (r : DetectionResult)
    (hr : r ∈ detect_label_based_names text) :
    ∃ m ∈ labelFinditer text,
      r = ⟨pyStrip (pySlice text m.1 m.2), "PERSON", m.1, m.2, 0.85,
        "label_heuristic"⟩ := by
  unfold detect_label_based_names at hr
  rw [List.mem_filterMap] at hr
  obtain ⟨m, hm, hf⟩ := hr
  refine ⟨m, hm, ?_⟩
  split at hf
  · cases hf
  · split at hf
    · cases hf
    · cases hf
      rfl

/-- C3 (amended).  Exact-keyword spans satisfy `start < end` and their
text is the clamped Python slice `text[start:end]`; when a keyword
carries no surrounding whitespace its spans additionally satisfy
`end ≤ len(text)` (with padded keywords `end` can overshoot, as the
counterexample shows).  Label-heuristic spans satisfy `start < end`,
`end ≤ len(text)`, and their text is the stripped substring at
`[start, end)`. -/
theorem C3_amended :
    (∀ (text : Str) (kws : List Str) (r : DetectionResult),
        r ∈ exact_match text kws →
        r.start < r.«end» ∧ r.text = pySlice text r.start r.«end») ∧
    (∀ (text : Str) (kws : List Str),
        (∀ kw ∈ kws, pyStrip kw = kw) →
        ∀ r ∈ exact_match text kws, r.«end» ≤ text.length) ∧
    (∀ (text : Str) (r : DetectionResult),
        r ∈ detect_label_based_names text →
        r.start < r.«end» ∧ r.«end» ≤ text.length ∧
        r.text = pyStrip (pySlice text r.start r.«end»)) := by
  refine ⟨?_, ?_, ?_⟩
  · intro text kws r hr
    obtain ⟨kw, _, hks, idx, hrec, _⟩ := exact_match_mem text kws r hr
    have hkw : kw ≠ [] := by
      intro hcon
      rw [hcon] at hks
      exact hks pyStrip_nil
    have hklen : 1 ≤ kw.length := List.length_pos.mpr hkw
    subst hrec
    exact ⟨by simpa using hklen, rfl⟩
  · intro text kws hstrip r hr
    obtain ⟨kw, hkmem, hks, idx, hrec, hbound⟩ := exact_match_mem text kws r hr
    have hcomm : pyStrip (pyLowerS kw) = pyLowerS (pyStrip kw) := pyStrip_pyLowerS kw
    have hlen : (pyStrip (pyLowerS kw)).length = kw.length := by
      rw [hcomm, hstrip kw hkmem]
      simp [pyLowerS]
    subst hrec
    simpa [hlen] using hbound
  · intro text r hr
    obtain ⟨m, hm, hrec⟩ := detect_label_mem text r hr
    obtain ⟨h3, hle⟩ := labelFindGo_props text (text.length + 2) 0 m hm
    subst hrec
    exact ⟨by simp only; omega, by simpa using hle, rfl⟩

/-- The label heuristic evaluated on `"Father Name  KISHOR KUMAR"`. -/
theorem detect_label_father_eval :
    detect_label_based_names (str "Father Name  KISHOR KUMAR") =
      [⟨str "KISHOR KUMAR", "PERSON", 13, 25, 0.85, "label_heuristic"⟩] := rfl

/-- Witness for C3 (amended) at concrete inputs: the exact-match span for
keyword `"b"` in `"abc"` and the label-heuristic span for
`"Father Name  KISHOR KUMAR"`. -/
theorem C3_amended_witness :
    (1 < 2 ∧ str "b" = pySlice (str "abc") 1 2) ∧
    (2 ≤ (str "abc").length) ∧
    (13 < 25 ∧ 25 ≤ (str "Father Name  KISHOR KUMAR").length ∧
      str "KISHOR KUMAR" =
        pyStrip (pySlice (str "Father Name  KISHOR KUMAR") 13 25)) := by
  refine ⟨?_, ?_, ?_⟩
  · exact C3_amended.1 (str "abc") [str "b"]
      ⟨str "b", "CUSTOM_KEYWORD", 1, 2, 1, "exact"⟩ (by decide)
  · exact C3_amended.2.1 (str "abc") [str "b"] (by decide)
      ⟨str "b", "CUSTOM_KEYWORD", 1, 2, 1, "exact"⟩ (by decide)
  · exact C3_amended.2.2 (str "Father Name  KISHOR KUMAR")
      ⟨str "KISHOR KUMAR", "PERSON", 13, 25, 0.85, "label_heuristic"⟩
      (by rw [detect_label_father_eval]; exact List.mem_singleton.mpr rfl)

/-- C5.  On input `"Father Name  KISHOR KUMAR"` the label heuristic
returns exactly one span: text `"KISHOR KUMAR"`, category PERSON,
confidence 0.85, at character range `[13, 25)`, which is exactly the
range of the captured value; the span text contains neither the label
token `"Father"` nor `"Name"`. -/
theorem C5_label_heuristic :
    detect_label_based_names (str "Father Name  KISHOR KUMAR") =
      [⟨str "KISHOR KUMAR", "PERSON", 13, 25, 0.85, "label_heuristic"⟩] ∧
    containsSub (str "KISHOR KUMAR") (str "Father") = false ∧
    containsSub (str "KISHOR KUMAR") (str "Name") = false ∧
    pySlice (str "Father Name  KISHOR KUMAR") 13 25 = str "KISHOR KUMAR" := by
  exact ⟨detect_label_father_eval, by decide, by decide, by decide⟩

/-! ### RapidFuzz similarity model

`rapidfuzz.fuzz.ratio` is the normalized InDel similarity: with
`dist = |a| + |b| - 2·lcs(a,b)` (insertions/deletions only), the score is
`100·(1 - dist/(|a|+|b|)) = 200·lcs(a,b)/(|a|+|b|)`, and `100.0` when both
strings are empty.  `rapidfuzz.fuzz.partial_ratio` is the best `ratio` of
the shorter string against the windows of its own length in the longer
string (the optimal alignment of the shorter inside the longer). -/

/-- Longest-common-subsequence length (fuel-structured so that it reduces
in the kernel; `|a| + |b|` steps always suffice). -/
def lcsLenGo : Nat → Str → Str → Nat
  | 0, _, _ => 0
  | fuel + 1, a, b =>
    match a, b with
    | [], _ => 0
    | _, [] => 0
    | a1 :: as, b1 :: bs =>
      if a1 = b1 then 1 + lcsLenGo fuel as bs
      else max (lcsLenGo fuel as (b1 :: bs)) (lcsLenGo fuel (a1 :: as) bs)

/-- Longest-common-subsequence length. -/
def lcsLen (a b : Str) : Nat := lcsLenGo (a.length + b.length) a b

/-- `rapidfuzz.fuzz.ratio` as an exact rational. -/
def fuzzRatio (a b : Str) : Rat :=
  if a.length + b.length = 0 then 100
  else (200 * lcsLen a b : Rat) / (a.length + b.length)

/-- `rapidfuzz.fuzz.partial_ratio` as an exact rational. -/
def fuzzPartialRatio (a b : Str) : Rat :=
  if a.length ≤ b.length then
    ((List.range (b.length - a.length + 1)).map
      (fun i => fuzzRatio a ((b.drop i).take a.length))).foldl max 0
  else
    ((List.range (a.length - b.length + 1)).map
      (fun i => fuzzRatio b ((a.drop i).take b.length))).foldl max 0

/-- Threshold comparison of `fuzz.ratio`, cross-multiplied into the
naturals (this is how the concrete branch decisions are evaluated, since
the rational itself is `200·lcs/(|a|+|b|)`). -/
theorem fuzzRatio_ge_iff (a b : Str) (t : Nat) (h : a.length + b.length ≠ 0) :
    ((t : Rat) ≤ fuzzRatio a b) ↔
      t * (a.length + b.length) ≤ 200 * lcsLen a b := by
  unfold fuzzRatio
  rw [if_neg h]
  have hpos : (0 : Rat) < (a.length : Rat) + (b.length : Rat) := by
    have h0 : 0 < a.length + b.length := Nat.pos_of_ne_zero h
    exact_mod_cast h0
  rw [le_div_iff₀ hpos]
  constructor
  · intro hx; exact_mod_cast hx
  · intro hx; exact_mod_cast hx

/-- Word tokens `\b\w+\b` of the text with their start offsets (the
`finditer` of `_fuzzy_match`): maximal runs of word characters.  Fuel
bounds the scan; `s.length + 1` steps always suffice. -/
def wordTokensGo : Nat → Str → Nat → List (Nat × Str)
  | 0, _, _ => []
  | fuel + 1, s, i =>
    match s with
    | [] => []
    | c :: rest =>
      if isWordChar c then
        (i, (c :: rest).takeWhile isWordChar) ::
          wordTokensGo fuel ((c :: rest).drop ((c :: rest).takeWhile isWordChar).length)
            (i + ((c :: rest).takeWhile isWordChar).length)
      else wordTokensGo fuel rest (i + 1)

/-- Word tokens of a text with start offsets. -/
def wordTokens (s : Str) : List (Nat × Str) := wordTokensGo (s.length + 1) s 0

/-- Inner keyword loop of `_fuzzy_match` for one word token: skip blank
keywords; report the word once at the first keyword whose whole-word
ratio meets the threshold (`source "fuzzy"`), or — for keywords longer
than 4 characters — whose partial ratio meets it (`source
"fuzzy_partial"`); `break` stops after the first hit. -/
def fuzzyWordLoop (word : Str) (ws we threshold : Nat) :
    List Str → List DetectionResult
  | [] => []
  | kw :: rest =>
    if pyStrip kw = [] then fuzzyWordLoop word ws we threshold rest
    else if fuzzRatio (pyLowerS word) (pyStrip (pyLowerS kw)) ≥ (threshold : Rat) then
      [⟨word, "CUSTOM_KEYWORD", ws, we,
        fuzzRatio (pyLowerS word) (pyStrip (pyLowerS kw)) / 100, "fuzzy"⟩]
    else if kw.length > 4 ∧
        fuzzPartialRatio (pyStrip (pyLowerS kw)) (pyLowerS word) ≥ (threshold : Rat) then
      [⟨word, "CUSTOM_KEYWORD", ws, we,
        fuzzPartialRatio (pyStrip (pyLowerS kw)) (pyLowerS word) / 100, "fuzzy_partial"⟩]
    else fuzzyWordLoop word ws we threshold rest

/-- `HybridPIIDetector._fuzzy_match`. -/
def fuzzy_match (text : Str) (keywords : List Str) (threshold : Nat) :
    List DetectionResult :=
  (wordTokens text).flatMap fun t =>
    fuzzyWordLoop t.2 t.1 (t.1 + t.2.length) threshold keywords

/-- Python truthiness of the guard `fuzzy_threshold and RAPIDFUZZ_AVAILABLE`:
`None` and `0` are falsy. -/
def ftTruthy : Option Nat → Bool
  | none => false
  | some t => decide (t ≠ 0)

/-- The `RAPIDFUZZ_AVAILABLE` module flag of `ocr_redaction.py` (the
library loads successfully in the deployed environment). -/
def RAPIDFUZZ_AVAILABLE : Bool := true

/-- Per-word term loop of `process_image_with_ocr`: a term matches if it
is a case-insensitive substring of the word, or — when the fuzzy guard is
truthy — if the whole-word ratio meets the threshold, or (for terms
longer than 4 characters) the partial ratio does; the first matching term
wins and no further terms are checked. -/
def ocrIsMatch (word : Str) (ft : Option Nat) : List Str → Bool
  | [] => false
  | term :: rest =>
    if containsSub (pyLowerS word) (pyLowerS term) then true
    else if ftTruthy ft && RAPIDFUZZ_AVAILABLE then
      if fuzzRatio (pyLowerS word) (pyLowerS term) ≥ (ft.getD 0 : Rat) then true
      else if term.length > 4 ∧
          fuzzPartialRatio (pyLowerS term) (pyLowerS word) ≥ (ft.getD 0 : Rat) then
        true
      else ocrIsMatch word ft rest
    else ocrIsMatch word ft rest

/-- One OCR word tuple `(text, left, top, width, height)` from
`pytesseract.image_to_data`. -/
structure OcrWord where
  text : Str
  left : Nat
  top : Nat
  width : Nat
  height : Nat
deriving DecidableEq

/-- The pixel regions `(x, y, w, h)` that `process_image_with_ocr`
redacts: those of every OCR word that is non-empty after stripping and
matches some term. -/
def process_image_matches (ocr : List OcrWord) (terms : List Str)
    (ft : Option Nat) : List (Nat × Nat × Nat × Nat) :=
  ocr.filterMap fun w =>
    if pyStrip w.text = [] then none
    else if ocrIsMatch (pyStrip w.text) ft terms then
      some (w.left, w.top, w.width, w.height)
    else none

/-- Pointwise length bound through `flatMap`. -/
theorem length_flatMap_le {α β : Type} (l : List α) (f g : α → List β)
    (h : ∀ a ∈ l, (f a).length ≤ (g a).length) :
    (l.flatMap f).length ≤ (l.flatMap g).length := by
  induction l with
  | nil => simp
  | cons x xs ih =>
    simp only [List.flatMap_cons, List.length_append]
    have hx := h x (List.mem_cons_self x xs)
    have ih' := ih (fun a ha => h a (List.mem_cons_of_mem x ha))
    omega

/-- Each word token contributes at most one span. -/
theorem fuzzyWordLoop_length_le_one (word : Str) (ws we t : Nat) :
    ∀ kws, (fuzzyWordLoop word ws we t kws).length ≤ 1 := by
  intro kws
  induction kws with
  | nil => simp [fuzzyWordLoop]
  | cons kw rest ih =>
    unfold fuzzyWordLoop
    split
    · exact ih
    · split
      · simp
      · split
        · simp
        · exact ih

/-- The per-word matching is antitone in the threshold: raising it never
adds a span for the word. -/
theorem fuzzyWordLoop_antitone (word : Str) (ws we t1 t2 : Nat) (h : t1 ≤ t2) :
    ∀ kws, (fuzzyWordLoop word ws we t2 kws).length ≤
      (fuzzyWordLoop word ws we t1 kws).length := by
  have hcast : ((t1 : Rat)) ≤ (t2 : Rat) := by exact_mod_cast h
  intro kws
  induction kws with
  | nil => simp [fuzzyWordLoop]
  | cons kw rest ih =>
    by_cases hs : pyStrip kw = []
    · simp only [fuzzyWordLoop, if_pos hs]
      exact ih
    · by_cases hr2 : fuzzRatio (pyLowerS word) (pyStrip (pyLowerS kw)) ≥ (t2 : Rat)
      · have hr1 : fuzzRatio (pyLowerS word) (pyStrip (pyLowerS kw)) ≥ (t1 : Rat) :=
          le_trans hcast hr2
        simp only [fuzzyWordLoop, if_neg hs, if_pos hr2, if_pos hr1]
        simp
      · by_cases hp2 : kw.length > 4 ∧
            fuzzPartialRatio (pyStrip (pyLowerS kw)) (pyLowerS word) ≥ (t2 : Rat)
        · by_cases hr1 : fuzzRatio (pyLowerS word) (pyStrip (pyLowerS kw)) ≥ (t1 : Rat)
          · simp only [fuzzyWordLoop, if_neg hs, if_neg hr2, if_pos hp2, if_pos hr1]
            simp
          · have hp1 : kw.length > 4 ∧
                fuzzPartialRatio (pyStrip (pyLowerS kw)) (pyLowerS word) ≥ (t1 : Rat) :=
              ⟨hp2.1, le_trans hcast hp2.2⟩
            simp only [fuzzyWordLoop, if_neg hs, if_neg hr2, if_pos hp2, if_neg hr1,
              if_pos hp1]
            simp
        · by_cases hr1 : fuzzRatio (pyLowerS word) (pyStrip (pyLowerS kw)) ≥ (t1 : Rat)
          · simp only [fuzzyWordLoop, if_neg hs, if_neg hr2, if_neg hp2, if_pos hr1]
            have := fuzzyWordLoop_length_le_one word ws we t2 rest
            simpa using this
          · by_cases hp1 : kw.length > 4 ∧
                fuzzPartialRatio (pyStrip (pyLowerS kw)) (pyLowerS word) ≥ (t1 : Rat)
            · simp only [fuzzyWordLoop, if_neg hs, if_neg hr2, if_neg hp2, if_neg hr1,
                if_pos hp1]
              have := fuzzyWordLoop_length_le_one word ws we t2 rest
              simpa using this
            · simp only [fuzzyWordLoop, if_neg hs, if_neg hr2, if_neg hp2, if_neg hr1,
                if_neg hp1]
              exact ih

/-- C4.  Fuzzy keyword matching is threshold-monotonic: for every text
and keyword list and thresholds `t1 ≤ t2`, `_fuzzy_match` returns at most
as many spans at `t2` as at `t1` (each word token contributes at most one
span, and its matching predicate is antitone in the threshold). -/
theorem C4_fuzzy_threshold_monotone (text : Str) (kws : List Str)
    (t1 t2 : Nat) (h : t1 ≤ t2) :
    (fuzzy_match text kws t2).length ≤ (fuzzy_match text kws t1).length := by
  unfold fuzzy_match
  exact length_flatMap_le (wordTokens text) _ _
    (fun a _ => fuzzyWordLoop_antitone a.2 a.1 (a.1 + a.2.length) t1 t2 h kws)

/-- Witness for C4 at a concrete input. -/
theorem C4_fuzzy_threshold_monotone_witness :
    50 ≤ 90 ∧
    (fuzzy_match (str "jon") [str "john"] 90).length ≤
      (fuzzy_match (str "jon") [str "john"] 50).length :=
  ⟨by decide, C4_fuzzy_threshold_monotone (str "jon") [str "john"] 50 90 (by decide)⟩

/-- The whole-word ratio comparison for OCR word `"J0HN"` against term
`"JOHN"`, cross-multiplied: the ratio is `200·3/8 = 75`. -/
theorem j0hn_ratio_iff (t : Nat) :
    ((t : Rat) ≤ fuzzRatio (pyLowerS (str "J0HN")) (pyLowerS (str "JOHN"))) ↔
      t * 8 ≤ 600 := by
  have h1 : pyLowerS (str "J0HN") = str "j0hn" := by decide
  have h2 : pyLowerS (str "JOHN") = str "john" := by decide
  rw [h1, h2]
  rw [fuzzRatio_ge_iff (str "j0hn") (str "john") t (by decide)]
  rw [show lcsLen (str "j0hn") (str "john") = 3 from by decide]
  norm_num [str]

/-- Evaluation of the OCR word loop for `"J0HN"` against `["JOHN"]` at
any nonzero threshold: match iff `t·8 ≤ 600`, i.e. `t ≤ 75`. -/
theorem ocrIsMatch_j0hn_john (t : Nat) (ht : t ≠ 0) :
    ocrIsMatch (str "J0HN") (some t) [str "JOHN"] = decide (t * 8 ≤ 600) := by
  unfold ocrIsMatch
  have hsub : containsSub (pyLowerS (str "J0HN")) (pyLowerS (str "JOHN")) = false := by
    decide
  rw [hsub]
  have hguard : (ftTruthy (some t) && RAPIDFUZZ_AVAILABLE) = true := by
    simp [ftTruthy, RAPIDFUZZ_AVAILABLE, ht]
  rw [if_neg (by simp), if_pos hguard]
  by_cases hr : ((some t).getD 0 : Rat) ≤
      fuzzRatio (pyLowerS (str "J0HN")) (pyLowerS (str "JOHN"))
  · rw [if_pos hr]
    have := (j0hn_ratio_iff t).mp (by simpa using hr)
    simp [this]
  · rw [if_neg hr]
    have hlen : ¬((str "JOHN").length > 4 ∧
        ((some t).getD 0 : Rat) ≤
          fuzzPartialRatio (pyLowerS (str "JOHN")) (pyLowerS (str "J0HN"))) :=
      fun hc => absurd hc.1 (by decide)
    rw [if_neg hlen]
    have : ¬(t * 8 ≤ 600) := fun hc => hr (by simpa using (j0hn_ratio_iff t).mpr hc)
    simp [ocrIsMatch, this]

/-- C2 counterexample.  The claim asserts that OCR word `"J0HN"` with the
single term `"JOHN"` and fuzzy threshold 85 is matched; in fact
`fuzz.ratio("j0hn","john") = 75 < 85` (and the term has length 4, so the
partial-ratio branch is skipped), so the word is not matched. -/
theorem C2_counterexample :
    ocrIsMatch (str "J0HN") (some 85) [str "JOHN"] = false := by
  rw [ocrIsMatch_j0hn_john 85 (by decide)]
  decide

/-- The claim's per-term matching criterion for one OCR word: the term is
a case-insensitive substring of the word, or — when the fuzzy guard is
truthy — the whole-word ratio meets the threshold, or (for terms longer
than 4 characters) the partial ratio does. -/
def ocrTermCriterion (word term : Str) (ft : Option Nat) : Prop :=
  containsSub (pyLowerS word) (pyLowerS term) = true ∨
  ((ftTruthy ft && RAPIDFUZZ_AVAILABLE) = true ∧
    ((ft.getD 0 : Rat) ≤ fuzzRatio (pyLowerS word) (pyLowerS term) ∨
      (term.length > 4 ∧
        (ft.getD 0 : Rat) ≤ fuzzPartialRatio (pyLowerS term) (pyLowerS word))))

/-- The word loop decides exactly the existential form of the criterion. -/
theorem ocrIsMatch_iff (word : Str) (ft : Option Nat) :
    ∀ (terms : List Str),
      ocrIsMatch word ft terms = true ↔
        ∃ term ∈ terms, ocrTermCriterion word term ft := by
  intro terms
  induction terms with
  | nil => simp [ocrIsMatch]
  | cons term rest ih =>
    unfold ocrIsMatch
    by_cases h1 : containsSub (pyLowerS word) (pyLowerS term) = true
    · rw [if_pos h1]
      simp only [true_iff]
      exact ⟨term, List.mem_cons_self term rest, Or.inl h1⟩
    · rw [if_neg h1]
      by_cases hg : (ftTruthy ft && RAPIDFUZZ_AVAILABLE) = true
      · rw [if_pos hg]
        by_cases hr : (ft.getD 0 : Rat) ≤ fuzzRatio (pyLowerS word) (pyLowerS term)
        · rw [if_pos hr]
          simp only [true_iff]
          exact ⟨term, List.mem_cons_self term rest, Or.inr ⟨hg, Or.inl hr⟩⟩
        · rw [if_neg hr]
          by_cases hp : term.length > 4 ∧
              (ft.getD 0 : Rat) ≤ fuzzPartialRatio (pyLowerS term) (pyLowerS word)
          · rw [if_pos hp]
            simp only [true_iff]
            exact ⟨term, List.mem_cons_self term rest, Or.inr ⟨hg, Or.inr hp⟩⟩
          · rw [if_neg hp]
            rw [ih]
            constructor
            · rintro ⟨u, hu, hpu⟩
              exact ⟨u, List.mem_cons_of_mem term hu, hpu⟩
            · rintro ⟨u, hu, hpu⟩
              rcases List.mem_cons.mp hu with rfl | hu'
              · rcases hpu with hc | ⟨_, hc2⟩
                · exact absurd hc h1
                · rcases hc2 with hc2 | hc2
                  · exact absurd hc2 hr
                  · exact absurd hc2 hp
              · exact ⟨u, hu', hpu⟩
      · rw [if_neg hg]
        rw [ih]
        constructor
        · rintro ⟨u, hu, hpu⟩
          exact ⟨u, List.mem_cons_of_mem term hu, hpu⟩
        · rintro ⟨u, hu, hpu⟩
          rcases List.mem_cons.mp hu with rfl | hu'
          · rcases hpu with hc | ⟨hc1, _⟩
            · exact absurd hc h1
            · exact absurd hc1 hg
          · exact ⟨u, hu', hpu⟩

/-- C2 (amended).  `fuzz.ratio("j0hn","john")` is exactly 75, so the OCR
word `"J0HN"` with term `"JOHN"` is NOT matched at fuzzy threshold 85
(and not at 100 either); it is matched exactly when the threshold is at
most 75.  The general rule is as claimed: a non-empty OCR word matches
iff some term is a case-insensitive substring of it, or — when the fuzzy
guard is truthy — the whole-word ratio meets the threshold, or (for terms
longer than 4 characters) the partial ratio does. -/
theorem C2_amended :
    ocrIsMatch (str "J0HN") (some 85) [str "JOHN"] = false ∧
    ocrIsMatch (str "J0HN") (some 100) [str "JOHN"] = false ∧
    fuzzRatio (pyLowerS (str "J0HN")) (pyLowerS (str "JOHN")) = 75 ∧
    ocrIsMatch (str "J0HN") (some 75) [str "JOHN"] = true ∧
    ∀ (word : Str) (terms : List Str) (ft : Option Nat), word ≠ [] →
      (ocrIsMatch word ft terms = true ↔
        ∃ term ∈ terms, ocrTermCriterion word term ft) := by
  refine ⟨?_, ?_, ?_, ?_, ?_⟩
  · rw [ocrIsMatch_j0hn_john 85 (by decide)]
    decide
  · rw [ocrIsMatch_j0hn_john 100 (by decide)]
    decide
  · have h1 : pyLowerS (str "J0HN") = str "j0hn" := by decide
    have h2 : pyLowerS (str "JOHN") = str "john" := by decide
    rw [h1, h2]
    unfold fuzzRatio
    rw [if_neg (by decide)]
    rw [show lcsLen (str "j0hn") (str "john") = 3 from by decide]
    norm_num [str]
  · rw [ocrIsMatch_j0hn_john 75 (by decide)]
    decide
  · intro word terms ft _
    exact ocrIsMatch_iff word ft terms

/-- Witness for C2 (amended) at a concrete input. -/
theorem C2_amended_witness :
    (str "AB") ≠ [] ∧
    (ocrIsMatch (str "AB") none [str "AB"] = true ↔
      ∃ term ∈ [str "AB"], ocrTermCriterion (str "AB") term none) :=
  ⟨by decide, C2_amended.2.2.2.2 (str "AB") [str "AB"] none (by decide)⟩

/-! ### Regex keyword mode (`_regex_match`)

The `re` library is an external collaborator: a compiled pattern is
modelled as a function from the text to its (non-overlapping) matches
`(start, end)`, and `re.compile` as a partial function returning `none`
exactly when it raises `re.error`; `match.group()` is the slice of the
text at the match range.  `_regex_match` compiles `pattern.strip()` with
`re.IGNORECASE` (the flag lives inside the compiled object). -/

/-- A compiled regex: text to the list of matches' `(start, end)`. -/
abbrev CompiledRegex := Str → List (Nat × Nat)

/-- `HybridPIIDetector._regex_match`: skip blank patterns; a pattern
whose compilation fails (`except re.error: continue`) contributes
nothing; each match of a compiled pattern is reported at confidence 1.0. -/
def regex_match (compile : Str → Option CompiledRegex) (text : Str)
    (patterns : List Str) : List DetectionResult :=
  patterns.flatMap fun p =>
    if pyStrip p = [] then []
    else match compile (pyStrip p) with
      | none => []
      | some rex =>
        (rex text).map fun m =>
          ⟨pySlice text m.1 m.2, "CUSTOM_PATTERN", m.1, m.2, 1, "regex"⟩

/-- C9.  In regex keyword mode, a pattern that fails to compile is
skipped and does not prevent the remaining patterns in the same call from
producing their matches: for every pattern list containing an invalid
pattern, the result equals the result on the list with that pattern
removed (and, being a total function, the matcher lets no exception
escape). -/
theorem C9_invalid_regex_skipped (compile : Str → Option CompiledRegex)
    (text : Str) (l1 l2 : List Str) (p : Str)
    (hp : compile (pyStrip p) = none) :
    regex_match compile text (l1 ++ p :: l2) =
      regex_match compile text (l1 ++ l2) := by
  unfold regex_match
  rw [List.flatMap_append, List.flatMap_append, List.flatMap_cons]
  have hzero : (if pyStrip p = [] then []
      else match compile (pyStrip p) with
        | none => []
        | some rex =>
          (rex text).map fun m =>
            (⟨pySlice text m.1 m.2, "CUSTOM_PATTERN", m.1, m.2, 1,
              "regex"⟩ : DetectionResult)) = [] := by
    split
    · rfl
    · rw [hp]
  rw [hzero]
  simp

/-- Witness for C9 at a concrete compile function (only the pattern `"("`
fails to compile; the valid pattern's matcher is constant). -/
theorem C9_invalid_regex_skipped_witness :
    (fun s => if s = str "(" then (none : Option CompiledRegex)
      else some fun _ => [(0, 1)]) (pyStrip (str "(")) = none ∧
    regex_match
      (fun s => if s = str "(" then (none : Option CompiledRegex)
        else some fun _ => [(0, 1)])
      (str "ab") [str "a", str "(", str "b"] =
    regex_match
      (fun s => if s = str "(" then (none : Option CompiledRegex)
        else some fun _ => [(0, 1)])
      (str "ab") [str "a", str "b"] :=
  ⟨rfl, C9_invalid_regex_skipped
    (fun s => if s = str "(" then none else some fun _ => [(0, 1)])
    (str "ab") [str "a"] [str "b"] (str "(") rfl⟩

/-! ### Position resolution (`search_text_with_fallback`)

The PyMuPDF page is an external collaborator: its native region search is
a black box `Str → List Rect`, and its two text dictionaries (the one
fetched with `fitz.TEXT_PRESERVE_WHITESPACE` for the character-level
search, and the default one for the fuzzy search) are data. -/

/-- A rectangle in page coordinates (`fitz.Rect`). -/
structure Rect where
  x0 : Rat
  y0 : Rat
  x1 : Rat
  y1 : Rat
deriving DecidableEq

/-- `fitz.Rect.__or__`: the smallest rectangle containing both. -/
def Rect.union (a b : Rect) : Rect :=
  ⟨min a.x0 b.x0, min a.y0 b.y0, max a.x1 b.x1, max a.y1 b.y1⟩

/-- One layout span of a text dictionary: its text and bounding box. -/
structure SpanD where
  text : Str
  bbox : Rect

/-- One line of a text dictionary: its spans. -/
structure LineD where
  spans : List SpanD

/-- One block; `lines = none` models a block without a `"lines"` key
(an image block), which both searches skip. -/
structure BlockD where
  lines : Option (List LineD)

/-- The page collaborator: native search plus the two text dictionaries. -/
structure PageModel where
  searchFor : Str → List Rect
  textDictWS : List BlockD
  textDict : List BlockD

/-- Build `line_text` and `span_info` by concatenating a line's spans
while recording each span's character-offset range and bbox. -/
def spanInfoGo : Str → List (Nat × Nat × Rect) → List SpanD →
    Str × List (Nat × Nat × Rect)
  | lineText, info, [] => (lineText, info)
  | lineText, info, sp :: rest =>
    spanInfoGo (lineText ++ sp.text)
      (info ++ [(lineText.length, lineText.length + sp.text.length, sp.bbox)])
      rest

/-- `_get_rect_for_range`: union of the boxes of every span whose offset
range intersects `[a, b)`; `none` when no span does. -/
def get_rect_for_range (info : List (Nat × Nat × Rect)) (a b : Nat) :
    Option Rect :=
  match info.filter (fun t => decide (t.2.1 > a) && decide (t.1 < b)) with
  | [] => none
  | r0 :: rest => some (rest.foldl (fun acc t => acc.union t.2.2) r0.2.2)

/-- All occurrence indices of `needle` in `hay` (the `while True` /
`find(..., idx); idx = found + 1` loop); fuel bounds the loop. -/
def findAllOccGo (hay needle : Str) : Nat → Nat → List Nat
  | 0, _ => []
  | fuel + 1, idx =>
    match findFrom hay needle idx with
    | none => []
    | some found => found :: findAllOccGo hay needle fuel (found + 1)

/-- Character-level search of one line: occurrences of the lowercased
term in the concatenated line text, each resolved to the union rectangle
of the overlapping spans (occurrences with no overlapping span are
skipped). -/
def lineSearch (term : Str) (line : LineD) : List Rect :=
  ((findAllOccGo (pyLowerS (spanInfoGo [] [] line.spans).1) (pyLowerS term)
      ((spanInfoGo [] [] line.spans).1.length + 1) 0).filterMap
    fun found =>
      get_rect_for_range (spanInfoGo [] [] line.spans).2 found
        (found + term.length))

/-- `_character_level_search`. -/
def character_level_search (page : PageModel) (term : Str) : List Rect :=
  page.textDictWS.flatMap fun b =>
    match b.lines with
    | none => []
    | some lines => lines.flatMap (lineSearch term)

/-- One span's contribution in `_fuzzy_search_in_page`: its bbox, once,
when some word of the span meets the threshold (the inner `break`). -/
def span_fuzzy_hits (term : Str) (threshold : Nat) (sp : SpanD) : List Rect :=
  if (splitWs sp.text).any
      (fun w => decide (fuzzRatio (pyLowerS w) (pyLowerS term) ≥ (threshold : Rat)))
  then [sp.bbox] else []

/-- `_fuzzy_search_in_page`. -/
def fuzzy_search_in_page (page : PageModel) (term : Str) (threshold : Nat) :
    List Rect :=
  page.textDict.flatMap fun b =>
    match b.lines with
    | none => []
    | some lines =>
      lines.flatMap fun line => line.spans.flatMap (span_fuzzy_hits term threshold)

/-- `search_text_with_fallback`: native search for the term as given,
then for the lowercased and uppercased term, then the character-level
reconstruction, then — only under the truthy fuzzy guard — the fuzzy word
search; the first strategy yielding any region wins, and the empty list
(not an error) is returned when none does.  (The source's redundant
`if not areas:` before strategy 3 is vacuously true at that point.) -/
def search_text_with_fallback (page : PageModel) (term : Str)
    (ft : Option Nat) : List Rect :=
  let a1 := page.searchFor term
  if a1.isEmpty then
    let a2 := page.searchFor (pyLowerS term)
    if a2.isEmpty then
      let a3 := page.searchFor (pyUpperS term)
      if a3.isEmpty then
        let a4 := character_level_search page term
        if a4.isEmpty then
          if ftTruthy ft && RAPIDFUZZ_AVAILABLE then
            let a5 := fuzzy_search_in_page page term (ft.getD 0)
            if a5.isEmpty then [] else a5
          else []
        else a4
      else a3
    else a2
  else a1

/-- The cascade as the spec words it: the ordered list of strategy
results (the fuzzy strategy present only under the truthy guard). -/
def strategyResults (page : PageModel) (term : Str) (ft : Option Nat) :
    List (List Rect) :=
  [page.searchFor term, page.searchFor (pyLowerS term),
   page.searchFor (pyUpperS term), character_level_search page term] ++
  (if ftTruthy ft && RAPIDFUZZ_AVAILABLE then
    [fuzzy_search_in_page page term (ft.getD 0)] else [])

/-- First non-empty result of an ordered list of strategy results, and
the empty list when every strategy fails. -/
def firstNonEmpty : List (List Rect) → List Rect
  | [] => []
  | x :: xs => if x.isEmpty then firstNonEmpty xs else x

/-- C7.  `search_text_with_fallback` evaluates its strategies in the
fixed order (native as given; native lowercased then uppercased;
character-level line reconstruction; fuzzy word search, the last only
when the fuzzy threshold is supplied and truthy) and returns the result
of the first strategy yielding any region, or the empty list — not an
error — when none does. -/
theorem C7_position_cascade (page : PageModel) (term : Str) (ft : Option Nat) :
    search_text_with_fallback page term ft =
      firstNonEmpty (strategyResults page term ft) := by
  unfold search_text_with_fallback strategyResults
  by_cases h1 : (page.searchFor term).isEmpty
  · by_cases h2 : (page.searchFor (pyLowerS term)).isEmpty
    · by_cases h3 : (page.searchFor (pyUpperS term)).isEmpty
      · by_cases h4 : (character_level_search page term).isEmpty
        · by_cases hg : (ftTruthy ft && RAPIDFUZZ_AVAILABLE) = true
          · by_cases h5 : (fuzzy_search_in_page page term (ft.getD 0)).isEmpty
            · simp [firstNonEmpty, h1, h2, h3, h4, hg, h5]
            · simp [firstNonEmpty, h1, h2, h3, h4, hg, h5]
          · simp [firstNonEmpty, h1, h2, h3, h4, hg]
        · simp [firstNonEmpty, h1, h2, h3, h4]
      · simp [firstNonEmpty, h1, h2, h3]
    · simp [firstNonEmpty, h1, h2]
  · simp [firstNonEmpty, h1]

/-! ### Two-pass ordering of `legal_redact_pdf`

The document mutations are modelled as an event trace: the text pass
(adding and committing redaction annotations per page) emits its events
for all pages before the image pass (extracting, OCR-processing and
replacing each embedded image) emits any of its own, followed by the
metadata wipe and the save.  The per-image `try/except` of the source
only skips a failing image; it cannot reorder events, so the pure trace
captures the ordering invariant. -/

/-- One observable document mutation of `legal_redact_pdf`. -/
inductive REvent where
  | addRedact (page : Nat) (r : Rect) (method : String)
  | applyRedactions (page : Nat)
  | extractImage (page : Nat) (xref : Nat)
  | processImage (page : Nat) (xref : Nat)
  | replaceImage (page : Nat) (xref : Nat)
  | setMetadata
  | save
deriving DecidableEq

/-- Text-layer events: adding and committing redaction annotations. -/
def REvent.isTextEvent : REvent → Bool
  | .addRedact _ _ _ => true
  | .applyRedactions _ => true
  | _ => false

/-- Image-layer events: extracting, processing, replacing an image. -/
def REvent.isImageEvent : REvent → Bool
  | .extractImage _ _ => true
  | .processImage _ _ => true
  | .replaceImage _ _ => true
  | _ => false

/-- One page of the document: its text-layer model and the xrefs of its
embedded images (in `get_images` order). -/
structure PdfPage where
  page : PageModel
  images : List Nat

/-- The first loop of `legal_redact_pdf`: per page, for each term, add a
redaction annotation over each region found by the fallback search, then
apply the page's redactions. -/
def textPassTrace (doc : List PdfPage) (terms : List Str) (method : String)
    (ft : Option Nat) : List REvent :=
  doc.enum.flatMap fun pi =>
    (terms.flatMap fun term =>
      (search_text_with_fallback pi.2.page term ft).map fun r =>
        REvent.addRedact pi.1 r method) ++
    [REvent.applyRedactions pi.1]

/-- The second loop of `legal_redact_pdf`: per page, extract, process and
replace each embedded image. -/
def imagePassTrace (doc : List PdfPage) : List REvent :=
  doc.enum.flatMap fun pi =>
    pi.2.images.flatMap fun x =>
      [REvent.extractImage pi.1 x, REvent.processImage pi.1 x,
        REvent.replaceImage pi.1 x]

/-- The full event trace of `legal_redact_pdf`: the complete text pass,
then the complete image pass, then metadata wipe and save. -/
def legal_redact_trace (doc : List PdfPage) (terms : List Str)
    (method : String) (ft : Option Nat) : List REvent :=
  textPassTrace doc terms method ft ++
    (imagePassTrace doc ++ [REvent.setMetadata, REvent.save])

/-- Every event of the text pass is a text event, not an image event. -/
theorem textPassTrace_text (doc : List PdfPage) (terms : List Str)
    (method : String) (ft : Option Nat) :
    ∀ e ∈ textPassTrace doc terms method ft,
      e.isImageEvent = false ∧ e.isTextEvent = true := by
  intro e he
  unfold textPassTrace at he
  rw [List.mem_flatMap] at he
  obtain ⟨pi, _, he⟩ := he
  rcases List.mem_append.mp he with he | he
  · rw [List.mem_flatMap] at he
    obtain ⟨term, _, he⟩ := he
    rw [List.mem_map] at he
    obtain ⟨r, _, rfl⟩ := he
    exact ⟨rfl, rfl⟩
  · rw [List.mem_singleton.mp he]
    exact ⟨rfl, rfl⟩

/-- Every event of the image pass is an image event, not a text event. -/
theorem imagePassTrace_image (doc : List PdfPage) :
    ∀ e ∈ imagePassTrace doc, e.isTextEvent = false := by
  intro e he
  unfold imagePassTrace at he
  rw [List.mem_flatMap] at he
  obtain ⟨pi, _, he⟩ := he
  rw [List.mem_flatMap] at he
  obtain ⟨x, _, he⟩ := he
  rcases List.mem_cons.mp he with rfl | he
  · rfl
  · rcases List.mem_cons.mp he with rfl | he
    · rfl
    · rw [List.mem_singleton.mp he]
      rfl

/-- C8.  The two layers are never interleaved per page: in the event
trace of `legal_redact_pdf`, every text-layer event (adding or committing
a redaction, on any page) occurs strictly before every image-layer event
(extracting, processing or replacing an embedded image, on any page) —
the image pass is a separate subsequent loop over all pages. -/
theorem C8_two_pass_order (doc : List PdfPage) (terms : List Str)
    (method : String) (ft : Option Nat) (i j : Nat) (e1 e2 : REvent)
    (h1 : (legal_redact_trace doc terms method ft)[i]? = some e1)
    (h2 : (legal_redact_trace doc terms method ft)[j]? = some e2)
    (hi : e1.isImageEvent = true) (hj : e2.isTextEvent = true) :
    j < i := by
  by_cases hiT : i < (textPassTrace doc terms method ft).length
  · exfalso
    unfold legal_redact_trace at h1
    rw [List.getElem?_append, if_pos hiT] at h1
    have hmem := List.getElem?_mem h1
    have := (textPassTrace_text doc terms method ft e1 hmem).1
    rw [this] at hi
    cases hi
  · by_cases hjT : j < (textPassTrace doc terms method ft).length
    · omega
    · exfalso
      unfold legal_redact_trace at h2
      rw [List.getElem?_append_right (le_of_not_lt hjT)] at h2
      have hmem := List.getElem?_mem h2
      rcases List.mem_append.mp hmem with hm | hm
      · have := imagePassTrace_image doc e2 hm
        rw [this] at hj
        cases hj
      · have : e2.isTextEvent = false := by
          rcases List.mem_cons.mp hm with rfl | hm2
          · rfl
          · rw [List.mem_singleton.mp hm2]
            rfl
        rw [this] at hj
        cases hj

/-- Witness for C8 on a one-page document with one term, one resolved
region and one embedded image: the first image event (index 2) comes
after the text event at index 0. -/
theorem C8_two_pass_order_witness :
    (legal_redact_trace [⟨⟨fun _ => [⟨0, 0, 1, 1⟩], [], []⟩, [7]⟩]
        [str "x"] "obfuscate" none)[2]? = some (REvent.extractImage 0 7) ∧
    (legal_redact_trace [⟨⟨fun _ => [⟨0, 0, 1, 1⟩], [], []⟩, [7]⟩]
        [str "x"] "obfuscate" none)[0]? =
      some (REvent.addRedact 0 ⟨0, 0, 1, 1⟩ "obfuscate") ∧
    0 < 2 :=
  ⟨rfl, rfl,
    C8_two_pass_order [⟨⟨fun _ => [⟨0, 0, 1, 1⟩], [], []⟩, [7]⟩]
      [str "x"] "obfuscate" none 2 0 (REvent.extractImage 0 7)
      (REvent.addRedact 0 ⟨0, 0, 1, 1⟩ "obfuscate") rfl rfl rfl rfl⟩
